import Mathlib

/-!
Verification of the DIPlib neighborhood / separable-convolution core.

The development shallowly embeds the data structures and operations of the
repository: the pixel-table neighborhood representation and its iterators
(from include/diplib/pixel_table.h), the one-dimensional filter description
(from include/diplib/linear.h), and the arithmetic entry points Div and Mod
(from src/math/arithmetic.cpp).  Machine floating-point weights are modelled
by rational numbers; C++ vectors by Lean lists.  Operations whose
implementation files are not part of the sources at hand (the pixel-table
constructors, the Prepare projection, the filter expansion and the separable
convolution engine) are modelled from the specification text and are marked
as such in their doc comments.
-/

namespace DiplibModel

/-- List.modify is written out explicitly: replace the element at position
`p` by `f` of it, leaving the list unchanged when `p` is out of range.
Models the C++ expression operating on one vector element in place. -/
def modifyNth (f : α → α) : Nat → List α → List α
  | _, [] => []
  | 0, x :: xs => f x :: xs
  | p + 1, x :: xs => x :: modifyNth f p xs

/-- Iterated application of a step function, collecting the `n` successive
values starting at `a` (the value BEFORE each step is collected). -/
def iterates (f : α → α) (a : α) : Nat → List α
  | 0 => []
  | n + 1 => a :: iterates f (f a) n

@[simp] theorem iterates_zero (f : α → α) (a : α) : iterates f a 0 = [] := rfl

@[simp] theorem iterates_succ (f : α → α) (a : α) (n : Nat) :
    iterates f a (n + 1) = a :: iterates f (f a) n := rfl

@[simp] theorem length_iterates (f : α → α) (a : α) (n : Nat) :
    (iterates f a n).length = n := by
  induction n generalizing a with
  | zero => rfl
  | succ n ih => simp [iterates, ih]

theorem iterates_map (f : α → α) (g : α → β) (h : β → β)
    (Q : α → Prop) (hcomm : ∀ x, Q x → g (f x) = h (g x))
    (hpres : ∀ x, Q x → Q (f x)) :
    ∀ (n : Nat) (a : α), Q a → (iterates f a n).map g = iterates h (g a) n := by
  intro n
  induction n with
  | zero => intro a _; rfl
  | succ n ih =>
    intro a ha
    simp only [iterates, List.map_cons]
    rw [ih (f a) (hpres a ha), hcomm a ha]

/-! ## One-dimensional filters (include/diplib/linear.h)

The struct `OneDimensionalFilter` holds the compact (possibly half) filter:
weights, an origin index that is "unset" when negative, and a symmetry
string. -/

/-- Embeds struct OneDimensionalFilter of linear.h: `filter` holds the
weights, `origin` is the origin index ("unset" when negative, defaulting
to -1), `symmetry` is one of "", "general", "even", "odd", "d-even",
"d-odd". -/
structure OneDimensionalFilter where
  filter : List ℚ
  origin : Int := -1
  symmetry : String := ""
deriving DecidableEq, Repr

/-- Modelled from the spec: the Expand operation of OneDimensionalFilterSpec
(spec section 4.3 and the expansion invariant of section 3); the separable
convolution implementation that performs this expansion is not among the
sources.  Returns the effective weights together with the effective origin,
or fails when the weights are empty or a set (non-negative) origin index is
out of range.  With stored weights of length N: "general" keeps the weights
and uses the stored origin (or N / 2 when unset); "even" appends the first
N - 1 weights reversed; "odd" additionally negates the appended half;
"d-even" appends all N weights reversed; "d-odd" additionally negates them.
For the four symmetric cases the effective origin is N - 1, the rightmost
stored element. -/
def Expand (f : OneDimensionalFilter) : Except String (List ℚ × Nat) :=
  if f.filter.isEmpty then .error "InvalidParameter"
  else if 0 ≤ f.origin ∧ f.filter.length ≤ f.origin.toNat then .error "InvalidParameter"
  else
    let N := f.filter.length
    if f.symmetry = "" ∨ f.symmetry = "general" then
      .ok (f.filter, if 0 ≤ f.origin then f.origin.toNat else N / 2)
    else if f.symmetry = "even" then
      .ok (f.filter ++ (f.filter.take (N - 1)).reverse, N - 1)
    else if f.symmetry = "odd" then
      .ok (f.filter ++ ((f.filter.take (N - 1)).reverse.map (fun x => -x)), N - 1)
    else if f.symmetry = "d-even" then
      .ok (f.filter ++ f.filter.reverse, N - 1)
    else if f.symmetry = "d-odd" then
      .ok (f.filter ++ (f.filter.reverse.map (fun x => -x)), N - 1)
    else .error "InvalidParameter"

end DiplibModel

namespace DiplibModel

theorem expand_even_eq (f : OneDimensionalFilter) (h1 : f.filter ≠ [])
    (h2 : 0 ≤ f.origin → f.origin.toNat < f.filter.length)
    (hs : f.symmetry = "even") :
    Expand f = .ok (f.filter ++ (f.filter.take (f.filter.length - 1)).reverse,
      f.filter.length - 1) := by
  unfold Expand
  rw [if_neg (by simpa using h1), if_neg (by push_neg; intro h0; exact h2 h0), hs]
  simp

theorem expand_odd_eq (f : OneDimensionalFilter) (h1 : f.filter ≠ [])
    (h2 : 0 ≤ f.origin → f.origin.toNat < f.filter.length)
    (hs : f.symmetry = "odd") :
    Expand f = .ok (f.filter ++ ((f.filter.take (f.filter.length - 1)).reverse.map (fun x => -x)),
      f.filter.length - 1) := by
  unfold Expand
  rw [if_neg (by simpa using h1), if_neg (by push_neg; intro h0; exact h2 h0), hs]
  simp

theorem expand_deven_eq (f : OneDimensionalFilter) (h1 : f.filter ≠ [])
    (h2 : 0 ≤ f.origin → f.origin.toNat < f.filter.length)
    (hs : f.symmetry = "d-even") :
    Expand f = .ok (f.filter ++ f.filter.reverse, f.filter.length - 1) := by
  unfold Expand
  rw [if_neg (by simpa using h1), if_neg (by push_neg; intro h0; exact h2 h0), hs]
  simp

theorem expand_dodd_eq (f : OneDimensionalFilter) (h1 : f.filter ≠ [])
    (h2 : 0 ≤ f.origin → f.origin.toNat < f.filter.length)
    (hs : f.symmetry = "d-odd") :
    Expand f = .ok (f.filter ++ (f.filter.reverse.map (fun x => -x)), f.filter.length - 1) := by
  unfold Expand
  rw [if_neg (by simpa using h1), if_neg (by push_neg; intro h0; exact h2 h0), hs]
  simp

theorem expand_general_eq (f : OneDimensionalFilter) (h1 : f.filter ≠ [])
    (h2 : 0 ≤ f.origin → f.origin.toNat < f.filter.length)
    (hs : f.symmetry = "" ∨ f.symmetry = "general") :
    Expand f = .ok (f.filter,
      if 0 ≤ f.origin then f.origin.toNat else f.filter.length / 2) := by
  unfold Expand
  rw [if_neg (by simpa using h1), if_neg (by push_neg; intro h0; exact h2 h0), if_pos hs]

/-- C1: Expand produces the effective weights by the symmetry rule: with
stored weights of length N, "general" leaves the N weights unchanged;
"even" appends the first N - 1 weights reversed (length 2N - 1); "odd"
appends them reversed and negated (length 2N - 1); "d-even" appends all N
weights reversed (length 2N); "d-odd" appends all N weights reversed and
negated (length 2N).  In particular [1,2,3] with even symmetry expands to
[1,2,3,2,1] and with duplicated-odd symmetry to [1,2,3,-3,-2,-1]. -/
theorem C1_expand_symmetry_rule (f : OneDimensionalFilter) (N : Nat)
    (hN : f.filter.length = N) (h1 : f.filter ≠ [])
    (h2 : 0 ≤ f.origin → f.origin.toNat < f.filter.length) :
    ((f.symmetry = "" ∨ f.symmetry = "general") →
      ∃ o, Expand f = .ok (f.filter, o)) ∧
    (f.symmetry = "even" →
      ∃ o, Expand f = .ok (f.filter ++ (f.filter.take (N - 1)).reverse, o) ∧
        (f.filter ++ (f.filter.take (N - 1)).reverse).length = 2 * N - 1) ∧
    (f.symmetry = "odd" →
      ∃ o, Expand f =
          .ok (f.filter ++ ((f.filter.take (N - 1)).reverse.map (fun x => -x)), o) ∧
        (f.filter ++ ((f.filter.take (N - 1)).reverse.map (fun x => -x))).length = 2 * N - 1) ∧
    (f.symmetry = "d-even" →
      ∃ o, Expand f = .ok (f.filter ++ f.filter.reverse, o) ∧
        (f.filter ++ f.filter.reverse).length = 2 * N) ∧
    (f.symmetry = "d-odd" →
      ∃ o, Expand f = .ok (f.filter ++ (f.filter.reverse.map (fun x => -x)), o) ∧
        (f.filter ++ (f.filter.reverse.map (fun x => -x))).length = 2 * N) ∧
    Expand { filter := [1, 2, 3], symmetry := "even" } = .ok ([1, 2, 3, 2, 1], 2) ∧
    Expand { filter := [1, 2, 3], symmetry := "d-odd" } = .ok ([1, 2, 3, -3, -2, -1], 2) := by
  have hNpos : 0 < N := hN ▸ List.length_pos.mpr h1
  subst hN
  refine ⟨?_, ?_, ?_, ?_, ?_, by rfl, by rfl⟩
  · intro hs
    exact ⟨_, expand_general_eq f h1 h2 hs⟩
  · intro hs
    refine ⟨_, expand_even_eq f h1 h2 hs, ?_⟩
    simp [List.length_append, List.length_take]
    omega
  · intro hs
    refine ⟨_, expand_odd_eq f h1 h2 hs, ?_⟩
    simp [List.length_append, List.length_take]
    omega
  · intro hs
    refine ⟨_, expand_deven_eq f h1 h2 hs, ?_⟩
    simp [List.length_append]
    ring
  · intro hs
    refine ⟨_, expand_dodd_eq f h1 h2 hs, ?_⟩
    simp [List.length_append]
    ring

/-- Witness for C1 at the concrete input weights [1,2,3] with even
symmetry. -/
theorem C1_expand_symmetry_rule_witness :
    Expand { filter := [1, 2, 3], symmetry := "even" } = .ok ([1, 2, 3, 2, 1], 2) :=
  (C1_expand_symmetry_rule { filter := [1, 2, 3], symmetry := "even" } 3 rfl
    (by decide) (by decide)).2.2.2.2.2.1

/-- C2: for the four symmetric cases the effective origin of the expanded
filter is N - 1 (the rightmost stored element), regardless of the stored
origin index; for the general case the effective origin is the stored
origin index when set (non-negative), and N / 2 when unset. -/
theorem C2_expand_origin (f : OneDimensionalFilter) (N : Nat)
    (hN : f.filter.length = N) (h1 : f.filter ≠ [])
    (h2 : 0 ≤ f.origin → f.origin.toNat < f.filter.length) :
    ((f.symmetry = "even" ∨ f.symmetry = "odd" ∨ f.symmetry = "d-even" ∨
        f.symmetry = "d-odd") →
      ∃ w, Expand f = .ok (w, N - 1)) ∧
    ((f.symmetry = "" ∨ f.symmetry = "general") → 0 ≤ f.origin →
      ∃ w, Expand f = .ok (w, f.origin.toNat)) ∧
    ((f.symmetry = "" ∨ f.symmetry = "general") → f.origin < 0 →
      ∃ w, Expand f = .ok (w, N / 2)) := by
  subst hN
  refine ⟨?_, ?_, ?_⟩
  · rintro (hs | hs | hs | hs)
    · exact ⟨_, expand_even_eq f h1 h2 hs⟩
    · exact ⟨_, expand_odd_eq f h1 h2 hs⟩
    · exact ⟨_, expand_deven_eq f h1 h2 hs⟩
    · exact ⟨_, expand_dodd_eq f h1 h2 hs⟩
  · intro hs h0
    exact ⟨_, by rw [expand_general_eq f h1 h2 hs, if_pos h0]⟩
  · intro hs h0
    exact ⟨_, by rw [expand_general_eq f h1 h2 hs, if_neg (not_le.mpr h0)]⟩

/-- Witness for C2: a symmetric filter with an explicitly set origin index
still expands with effective origin N - 1 = 2. -/
theorem C2_expand_origin_witness :
    ∃ w, Expand { filter := [1, 2, 3], origin := 0, symmetry := "even" } = .ok (w, 2) :=
  (C2_expand_origin { filter := [1, 2, 3], origin := 0, symmetry := "even" } 3 rfl
    (by decide) (by decide)).1 (Or.inl rfl)

end DiplibModel

namespace DiplibModel

/-! ## Pixel tables (include/diplib/pixel_table.h)

A pixel table holds an ordered sequence of runs; each run starts at a
coordinate vector (relative to the neighborhood origin) and extends along
the processing dimension.  The offsets variant holds a linear offset per
run instead, together with the stride of the image along the processing
dimension. -/

/-- Embeds PixelTable::PixelRun: the coordinates of the first pixel of a
run and the length of the run. -/
structure PixelRun where
  coordinates : List Int
  length : Nat
deriving DecidableEq, Repr

/-- Embeds class PixelTable: runs, bounding-box sizes, origin within the
bounding box, total pixel count, and the processing dimension. -/
structure PixelTable where
  runs : List PixelRun
  sizes : List Nat
  origin : List Nat
  nPixels : Nat
  procDim : Nat
deriving DecidableEq, Repr

/-- Embeds PixelTableOffsets::PixelRun: the offset of the first pixel of a
run (w.r.t. the origin) and the length of the run. -/
structure OffsetRun where
  offset : Int
  length : Nat
deriving DecidableEq, Repr

/-- Embeds class PixelTableOffsets: runs in offset form, plus the stride of
the image along the processing dimension. -/
structure PixelTableOffsets where
  runs : List OffsetRun
  sizes : List Nat
  origin : List Nat
  nPixels : Nat
  procDim : Nat
  stride : Int
deriving DecidableEq, Repr

/-- Embeds the state of PixelTable::iterator: the current run index, the
index within the run, and the current coordinates. -/
structure PTIterator where
  run : Nat
  index : Nat
  coordinates : List Int
deriving DecidableEq, Repr

/-- Embeds the state of PixelTableOffsets::iterator: the current run index,
the index within the run, and the current offset. -/
structure PTOIterator where
  run : Nat
  index : Nat
  offset : Int
deriving DecidableEq, Repr

/-- Embeds the iterator(PixelTable const&) constructor: throws "Pixel Table
is empty" when the table has no pixels, otherwise starts at the first run's
coordinates with run and index zero. -/
def PixelTable.beginIter (pt : PixelTable) : Except String PTIterator :=
  if pt.nPixels = 0 then .error "Pixel Table is empty"
  else .ok { run := 0, index := 0, coordinates := (pt.runs.getD 0 ⟨[], 0⟩).coordinates }

/-- Embeds the iterator(PixelTableOffsets const&) constructor: throws
"Pixel Table is empty" when the table has no pixels, otherwise starts at
the first run's offset with run and index zero. -/
def PixelTableOffsets.beginIter (pt : PixelTableOffsets) : Except String PTOIterator :=
  if pt.nPixels = 0 then .error "Pixel Table is empty"
  else .ok { run := 0, index := 0, offset := (pt.runs.getD 0 ⟨0, 0⟩).offset }

/-- Embeds PixelTable::iterator::IsAtEnd: the run index equals the number
of runs. -/
def PixelTable.isAtEnd (pt : PixelTable) (it : PTIterator) : Bool :=
  it.run = pt.runs.length

/-- Embeds PixelTableOffsets::iterator::IsAtEnd. -/
def PixelTableOffsets.isAtEnd (pt : PixelTableOffsets) (it : PTOIterator) : Bool :=
  it.run = pt.runs.length

/-- Embeds PixelTable::iterator::operator++: when not past the last run,
advance the index; when still inside the current run, increment the
coordinate along the processing dimension; otherwise reset the index, move
to the next run and, when that run exists, load its starting coordinates. -/
def PixelTable.incr (pt : PixelTable) (it : PTIterator) : PTIterator :=
  if it.run < pt.runs.length then
    let index := it.index + 1
    if index < (pt.runs.getD it.run ⟨[], 0⟩).length then
      { run := it.run, index := index,
        coordinates := modifyNth (fun x => x + 1) pt.procDim it.coordinates }
    else
      let run := it.run + 1
      if run < pt.runs.length then
        { run := run, index := 0, coordinates := (pt.runs.getD run ⟨[], 0⟩).coordinates }
      else
        { run := run, index := 0, coordinates := it.coordinates }
  else it

/-- Embeds PixelTableOffsets::iterator::operator++: same control flow as
the coordinate iterator, but stepping the offset by the stored stride. -/
def PixelTableOffsets.incr (pt : PixelTableOffsets) (it : PTOIterator) : PTOIterator :=
  if it.run < pt.runs.length then
    let index := it.index + 1
    if index < (pt.runs.getD it.run ⟨0, 0⟩).length then
      { run := it.run, index := index, offset := it.offset + pt.stride }
    else
      let run := it.run + 1
      if run < pt.runs.length then
        { run := run, index := 0, offset := (pt.runs.getD run ⟨0, 0⟩).offset }
      else
        { run := run, index := 0, offset := it.offset }
  else it

/-- Iterate the coordinate iterator `n` times. -/
def PixelTable.incrN (pt : PixelTable) (it : PTIterator) : Nat → PTIterator
  | 0 => it
  | n + 1 => pt.incrN (pt.incr it) n

/-- Iterate the offset iterator `n` times. -/
def PixelTableOffsets.incrN (pt : PixelTableOffsets) (it : PTOIterator) : Nat → PTOIterator
  | 0 => it
  | n + 1 => pt.incrN (pt.incr it) n

/-- Sequence of coordinates visited by `n` dereference-then-increment steps
of the coordinate iterator. -/
def PixelTable.traceFrom (pt : PixelTable) (it : PTIterator) : Nat → List (List Int)
  | 0 => []
  | n + 1 => it.coordinates :: pt.traceFrom (pt.incr it) n

/-- Sequence of offsets visited by `n` dereference-then-increment steps of
the offset iterator. -/
def PixelTableOffsets.traceFrom (pt : PixelTableOffsets) (it : PTOIterator) :
    Nat → List Int
  | 0 => []
  | n + 1 => it.offset :: pt.traceFrom (pt.incr it) n

/-- Full traversal of a pixel table: the coordinates visited by iterating
from begin for NumberOfPixels steps (empty when begin throws). -/
def PixelTable.trace (pt : PixelTable) : List (List Int) :=
  match pt.beginIter with
  | .ok it => pt.traceFrom it pt.nPixels
  | .error _ => []

/-- Full traversal of a pixel table with offsets. -/
def PixelTableOffsets.trace (pt : PixelTableOffsets) : List Int :=
  match pt.beginIter with
  | .ok it => pt.traceFrom it pt.nPixels
  | .error _ => []

/-- Coordinates of the pixels of one run, in traversal order: the starting
coordinates, then the coordinate along dimension `p` incremented one at a
time. -/
def runPixels (p : Nat) (r : PixelRun) : List (List Int) :=
  iterates (modifyNth (fun x => x + 1) p) r.coordinates r.length

/-- Offsets of the pixels of one offset run, in traversal order. -/
def runOffsets (s : Int) (r : OffsetRun) : List Int :=
  iterates (fun x => x + s) r.offset r.length

/-- Pixels of a pixel table in run order, as prescribed by the data-model
invariant: run by run, each run traversed by incrementing the processing
dimension coordinate. -/
def PixelTable.pixels (pt : PixelTable) : List (List Int) :=
  pt.runs.flatMap (runPixels pt.procDim)

/-- Offsets of a pixel table with offsets, in run order. -/
def PixelTableOffsets.offsetList (pt : PixelTableOffsets) : List Int :=
  pt.runs.flatMap (runOffsets pt.stride)

@[simp] theorem length_modifyNth (f : α → α) (p : Nat) (l : List α) :
    (modifyNth f p l).length = l.length := by
  induction l generalizing p with
  | nil => cases p <;> rfl
  | cons x xs ih => cases p <;> simp [modifyNth, ih]

/-- Unfolding equation of the coordinate iterator increment on an explicit
state. -/
theorem PixelTable.incr_def (pt : PixelTable) (i j : Nat) (c : List Int) :
    pt.incr ⟨i, j, c⟩ =
      if i < pt.runs.length then
        if j + 1 < (pt.runs.getD i ⟨[], 0⟩).length then
          ⟨i, j + 1, modifyNth (fun x => x + 1) pt.procDim c⟩
        else if i + 1 < pt.runs.length then
          ⟨i + 1, 0, (pt.runs.getD (i + 1) ⟨[], 0⟩).coordinates⟩
        else ⟨i + 1, 0, c⟩
      else ⟨i, j, c⟩ := rfl

/-- Unfolding equation of the offset iterator increment on an explicit
state. -/
theorem PixelTableOffsets.incr_def_offsets (pt : PixelTableOffsets) (i j : Nat) (x : Int) :
    pt.incr ⟨i, j, x⟩ =
      if i < pt.runs.length then
        if j + 1 < (pt.runs.getD i ⟨0, 0⟩).length then
          ⟨i, j + 1, x + pt.stride⟩
        else if i + 1 < pt.runs.length then
          ⟨i + 1, 0, (pt.runs.getD (i + 1) ⟨0, 0⟩).offset⟩
        else ⟨i + 1, 0, x⟩
      else ⟨i, j, x⟩ := rfl

theorem PixelTable.incrN_add (pt : PixelTable) (it : PTIterator) (a b : Nat) :
    pt.incrN it (a + b) = pt.incrN (pt.incrN it a) b := by
  induction a generalizing it with
  | zero => rw [Nat.zero_add]; rfl
  | succ a ih =>
    have h : a + 1 + b = (a + b) + 1 := by omega
    rw [h]
    show pt.incrN (pt.incr it) (a + b) = pt.incrN (pt.incrN (pt.incr it) a) b
    exact ih (pt.incr it)

theorem PixelTable.traceFrom_add (pt : PixelTable) (it : PTIterator) (a b : Nat) :
    pt.traceFrom it (a + b) = pt.traceFrom it a ++ pt.traceFrom (pt.incrN it a) b := by
  induction a generalizing it with
  | zero => rw [Nat.zero_add]; rfl
  | succ a ih =>
    have h : a + 1 + b = (a + b) + 1 := by omega
    rw [h]
    show it.coordinates :: pt.traceFrom (pt.incr it) (a + b) = _
    rw [ih (pt.incr it)]
    rfl

theorem PixelTableOffsets.incrN_add_offsets (pt : PixelTableOffsets) (it : PTOIterator) (a b : Nat) :
    pt.incrN it (a + b) = pt.incrN (pt.incrN it a) b := by
  induction a generalizing it with
  | zero => rw [Nat.zero_add]; rfl
  | succ a ih =>
    have h : a + 1 + b = (a + b) + 1 := by omega
    rw [h]
    show pt.incrN (pt.incr it) (a + b) = pt.incrN (pt.incrN (pt.incr it) a) b
    exact ih (pt.incr it)

theorem PixelTableOffsets.traceFrom_add_offsets (pt : PixelTableOffsets) (it : PTOIterator)
    (a b : Nat) :
    pt.traceFrom it (a + b) = pt.traceFrom it a ++ pt.traceFrom (pt.incrN it a) b := by
  induction a generalizing it with
  | zero => rw [Nat.zero_add]; rfl
  | succ a ih =>
    have h : a + 1 + b = (a + b) + 1 := by omega
    rw [h]
    show it.offset :: pt.traceFrom (pt.incr it) (a + b) = _
    rw [ih (pt.incr it)]
    rfl

/-- Behavior of the coordinate iterator across one run: starting at index
`j` of run `i` with `k + 1` pixels left in the run, the next `k + 1`
visited coordinates step along the processing dimension one at a time, and
after `k + 1` increments the iterator sits at the start of run `i + 1` (or
just past the last run, keeping the stale coordinates). -/
theorem PixelTable.run_lemma (pt : PixelTable) (i : Nat) (hi : i < pt.runs.length) :
    ∀ (k j : Nat) (c : List Int),
      j + (k + 1) = (pt.runs.getD i ⟨[], 0⟩).length →
      pt.traceFrom ⟨i, j, c⟩ (k + 1) =
          iterates (modifyNth (fun x => x + 1) pt.procDim) c (k + 1) ∧
      ∃ w, pt.incrN ⟨i, j, c⟩ (k + 1) = ⟨i + 1, 0, w⟩ ∧
        (i + 1 < pt.runs.length → w = (pt.runs.getD (i + 1) ⟨[], 0⟩).coordinates) := by
  intro k
  induction k with
  | zero =>
    intro j c hj
    have hstep : pt.incr ⟨i, j, c⟩ =
        if i + 1 < pt.runs.length then
          (⟨i + 1, 0, (pt.runs.getD (i + 1) ⟨[], 0⟩).coordinates⟩ : PTIterator)
        else ⟨i + 1, 0, c⟩ := by
      rw [pt.incr_def, if_pos hi, if_neg (by omega)]
    refine ⟨rfl, ?_⟩
    by_cases h2 : i + 1 < pt.runs.length
    · refine ⟨_, ?_, fun _ => rfl⟩
      show pt.incrN (pt.incr ⟨i, j, c⟩) 0 = _
      rw [hstep, if_pos h2]; rfl
    · refine ⟨c, ?_, fun h => absurd h h2⟩
      show pt.incrN (pt.incr ⟨i, j, c⟩) 0 = _
      rw [hstep, if_neg h2]; rfl
  | succ k ih =>
    intro j c hj
    have hstep : pt.incr ⟨i, j, c⟩ =
        ⟨i, j + 1, modifyNth (fun x => x + 1) pt.procDim c⟩ := by
      rw [pt.incr_def, if_pos hi, if_pos (by omega)]
    obtain ⟨ht, hw⟩ := ih (j + 1) (modifyNth (fun x => x + 1) pt.procDim c) (by omega)
    constructor
    · show c :: pt.traceFrom (pt.incr ⟨i, j, c⟩) (k + 1) = _
      rw [hstep, ht]; rfl
    · show ∃ w, pt.incrN (pt.incr ⟨i, j, c⟩) (k + 1) = _ ∧ _
      rw [hstep]; exact hw

/-- Behavior of the offset iterator across one run: mirror image of the
coordinate version, stepping the offset by the stride. -/
theorem PixelTableOffsets.run_lemma_offsets (pt : PixelTableOffsets) (i : Nat)
    (hi : i < pt.runs.length) :
    ∀ (k j : Nat) (x : Int),
      j + (k + 1) = (pt.runs.getD i ⟨0, 0⟩).length →
      pt.traceFrom ⟨i, j, x⟩ (k + 1) = iterates (fun y => y + pt.stride) x (k + 1) ∧
      ∃ w, pt.incrN ⟨i, j, x⟩ (k + 1) = ⟨i + 1, 0, w⟩ ∧
        (i + 1 < pt.runs.length → w = (pt.runs.getD (i + 1) ⟨0, 0⟩).offset) := by
  intro k
  induction k with
  | zero =>
    intro j x hj
    have hstep : pt.incr ⟨i, j, x⟩ =
        if i + 1 < pt.runs.length then
          (⟨i + 1, 0, (pt.runs.getD (i + 1) ⟨0, 0⟩).offset⟩ : PTOIterator)
        else ⟨i + 1, 0, x⟩ := by
      rw [pt.incr_def_offsets, if_pos hi, if_neg (by omega)]
    refine ⟨rfl, ?_⟩
    by_cases h2 : i + 1 < pt.runs.length
    · refine ⟨_, ?_, fun _ => rfl⟩
      show pt.incrN (pt.incr ⟨i, j, x⟩) 0 = _
      rw [hstep, if_pos h2]; rfl
    · refine ⟨x, ?_, fun h => absurd h h2⟩
      show pt.incrN (pt.incr ⟨i, j, x⟩) 0 = _
      rw [hstep, if_neg h2]; rfl
  | succ k ih =>
    intro j x hj
    have hstep : pt.incr ⟨i, j, x⟩ = ⟨i, j + 1, x + pt.stride⟩ := by
      rw [pt.incr_def_offsets, if_pos hi, if_pos (by omega)]
    obtain ⟨ht, hw⟩ := ih (j + 1) (x + pt.stride) (by omega)
    constructor
    · show x :: pt.traceFrom (pt.incr ⟨i, j, x⟩) (k + 1) = _
      rw [hstep, ht]; rfl
    · show ∃ w, pt.incrN (pt.incr ⟨i, j, x⟩) (k + 1) = _ ∧ _
      rw [hstep]; exact hw

/-- Full traversal from the start of run `i` to the end of the table: the
visited coordinates are exactly the pixels of the remaining runs, in run
order, and the iterator ends one past the last run. -/
theorem PixelTable.main_lemma (pt : PixelTable) :
    ∀ (m i : Nat), i + m = pt.runs.length → 0 < m →
      (∀ r ∈ pt.runs.drop i, 0 < r.length) →
      pt.traceFrom ⟨i, 0, (pt.runs.getD i ⟨[], 0⟩).coordinates⟩
          (((pt.runs.drop i).map PixelRun.length).sum) =
        (pt.runs.drop i).flatMap (runPixels pt.procDim) ∧
      ∃ w, pt.incrN ⟨i, 0, (pt.runs.getD i ⟨[], 0⟩).coordinates⟩
          (((pt.runs.drop i).map PixelRun.length).sum) = ⟨pt.runs.length, 0, w⟩ := by
  intro m
  induction m with
  | zero => omega
  | succ m ih =>
    intro i hi _ hpos
    have hilt : i < pt.runs.length := by omega
    have hdrop : pt.runs.drop i = pt.runs.getD i ⟨[], 0⟩ :: pt.runs.drop (i + 1) := by
      rw [List.getD_eq_getElem pt.runs ⟨[], 0⟩ hilt]
      exact List.drop_eq_getElem_cons hilt
    have hrpos : 0 < (pt.runs.getD i ⟨[], 0⟩).length := by
      apply hpos
      rw [hdrop]; exact List.mem_cons_self _ _
    obtain ⟨L, hL⟩ : ∃ L, (pt.runs.getD i ⟨[], 0⟩).length = L + 1 :=
      ⟨(pt.runs.getD i ⟨[], 0⟩).length - 1, by omega⟩
    have hrun := pt.run_lemma i hilt L 0 (pt.runs.getD i ⟨[], 0⟩).coordinates (by omega)
    rcases m with _ | m
    · -- this is the last run
      have hlast : i + 1 = pt.runs.length := by omega
      have hnil : pt.runs.drop (i + 1) = [] := by
        rw [hlast]; exact List.drop_length _
      have hsum : ((pt.runs.drop i).map PixelRun.length).sum = L + 1 := by
        rw [hdrop]; simp only [List.map_cons, List.sum_cons]; rw [hnil]; simp only [List.map_nil, List.sum_nil]; omega
      rw [hsum]
      obtain ⟨ht, w, hw, _⟩ := hrun
      constructor
      · rw [ht, hdrop, hnil]
        simp only [List.flatMap_cons, List.flatMap_nil, List.append_nil, runPixels]
        rw [hL]
      · exact ⟨w, by rw [hw, hlast]⟩
    · -- there are more runs after this one
      have hnext : i + 1 < pt.runs.length := by omega
      have hsum : ((pt.runs.drop i).map PixelRun.length).sum =
          (L + 1) + ((pt.runs.drop (i + 1)).map PixelRun.length).sum := by
        rw [hdrop]; simp only [List.map_cons, List.sum_cons]; omega
      obtain ⟨ht, w, hw, hwc⟩ := hrun
      have hwc2 := hwc hnext
      obtain ⟨ih1, ih2⟩ := ih (i + 1) (by omega) (by omega) (by
        intro s hs
        apply hpos
        rw [hdrop]
        exact List.mem_cons_of_mem _ hs)
      constructor
      · rw [hsum, pt.traceFrom_add, hw, hwc2, ht, ih1, hdrop]
        simp only [List.flatMap_cons, runPixels]
        rw [hL]
      · rw [hsum, pt.incrN_add, hw, hwc2]
        exact ih2

/-- Full traversal of the offsets table from the start of run `i`: the
visited offsets are exactly the offsets of the remaining runs, each run an
arithmetic progression with step the stored stride. -/
theorem PixelTableOffsets.main_lemma_offsets (pt : PixelTableOffsets) :
    ∀ (m i : Nat), i + m = pt.runs.length → 0 < m →
      (∀ r ∈ pt.runs.drop i, 0 < r.length) →
      pt.traceFrom ⟨i, 0, (pt.runs.getD i ⟨0, 0⟩).offset⟩
          (((pt.runs.drop i).map OffsetRun.length).sum) =
        (pt.runs.drop i).flatMap (runOffsets pt.stride) ∧
      ∃ w, pt.incrN ⟨i, 0, (pt.runs.getD i ⟨0, 0⟩).offset⟩
          (((pt.runs.drop i).map OffsetRun.length).sum) = ⟨pt.runs.length, 0, w⟩ := by
  intro m
  induction m with
  | zero => omega
  | succ m ih =>
    intro i hi _ hpos
    have hilt : i < pt.runs.length := by omega
    have hdrop : pt.runs.drop i = pt.runs.getD i ⟨0, 0⟩ :: pt.runs.drop (i + 1) := by
      rw [List.getD_eq_getElem pt.runs ⟨0, 0⟩ hilt]
      exact List.drop_eq_getElem_cons hilt
    have hrpos : 0 < (pt.runs.getD i ⟨0, 0⟩).length := by
      apply hpos
      rw [hdrop]; exact List.mem_cons_self _ _
    obtain ⟨L, hL⟩ : ∃ L, (pt.runs.getD i ⟨0, 0⟩).length = L + 1 :=
      ⟨(pt.runs.getD i ⟨0, 0⟩).length - 1, by omega⟩
    have hrun := pt.run_lemma_offsets i hilt L 0 (pt.runs.getD i ⟨0, 0⟩).offset (by omega)
    rcases m with _ | m
    · have hlast : i + 1 = pt.runs.length := by omega
      have hnil : pt.runs.drop (i + 1) = [] := by
        rw [hlast]; exact List.drop_length _
      have hsum : ((pt.runs.drop i).map OffsetRun.length).sum = L + 1 := by
        rw [hdrop]; simp only [List.map_cons, List.sum_cons]; rw [hnil]; simp only [List.map_nil, List.sum_nil]; omega
      rw [hsum]
      obtain ⟨ht, w, hw, _⟩ := hrun
      constructor
      · rw [ht, hdrop, hnil]
        simp only [List.flatMap_cons, List.flatMap_nil, List.append_nil, runOffsets]
        rw [hL]
      · exact ⟨w, by rw [hw, hlast]⟩
    · have hnext : i + 1 < pt.runs.length := by omega
      have hsum : ((pt.runs.drop i).map OffsetRun.length).sum =
          (L + 1) + ((pt.runs.drop (i + 1)).map OffsetRun.length).sum := by
        rw [hdrop]; simp only [List.map_cons, List.sum_cons]; omega
      obtain ⟨ht, w, hw, hwc⟩ := hrun
      have hwc2 := hwc hnext
      obtain ⟨ih1, ih2⟩ := ih (i + 1) (by omega) (by omega) (by
        intro s hs
        apply hpos
        rw [hdrop]
        exact List.mem_cons_of_mem _ hs)
      constructor
      · rw [hsum, pt.traceFrom_add_offsets, hw, hwc2, ht, ih1, hdrop]
        simp only [List.flatMap_cons, runOffsets]
        rw [hL]
      · rw [hsum, pt.incrN_add_offsets, hw, hwc2]
        exact ih2


theorem PixelTable.length_traceFrom (pt : PixelTable) (it : PTIterator) (n : Nat) :
    (pt.traceFrom it n).length = n := by
  induction n generalizing it with
  | zero => rfl
  | succ n ih =>
    show (it.coordinates :: pt.traceFrom (pt.incr it) n).length = n + 1
    rw [List.length_cons, ih]

theorem PixelTableOffsets.length_traceFrom_offsets (pt : PixelTableOffsets) (it : PTOIterator)
    (n : Nat) :
    (pt.traceFrom it n).length = n := by
  induction n generalizing it with
  | zero => rfl
  | succ n ih =>
    show (it.offset :: pt.traceFrom (pt.incr it) n).length = n + 1
    rw [List.length_cons, ih]

/-- C3: for every non-empty PixelTable satisfying the run invariants,
iterating from begin visits exactly the table pixels, run by run and within
each run by incrementing the processing-dimension coordinate by one; the
number of visited pixels equals NumberOfPixels and after NumberOfPixels
increment steps the iterator is at the end. -/
theorem C3_pixel_table_traversal (pt : PixelTable)
    (hpos : ∀ r ∈ pt.runs, 0 < r.length)
    (hsum : pt.nPixels = (pt.runs.map PixelRun.length).sum)
    (hne : 0 < pt.nPixels) :
    pt.beginIter = .ok ⟨0, 0, (pt.runs.getD 0 ⟨[], 0⟩).coordinates⟩ ∧
    pt.traceFrom ⟨0, 0, (pt.runs.getD 0 ⟨[], 0⟩).coordinates⟩ pt.nPixels = pt.pixels ∧
    (pt.traceFrom ⟨0, 0, (pt.runs.getD 0 ⟨[], 0⟩).coordinates⟩ pt.nPixels).length =
      pt.nPixels ∧
    pt.isAtEnd (pt.incrN ⟨0, 0, (pt.runs.getD 0 ⟨[], 0⟩).coordinates⟩ pt.nPixels) = true := by
  have hne2 : pt.runs ≠ [] := by
    intro h
    rw [h] at hsum
    simp at hsum
    omega
  have hlen : 0 < pt.runs.length := List.length_pos.mpr hne2
  obtain ⟨ht, w, hw⟩ := pt.main_lemma pt.runs.length 0 (by omega) hlen
    (by simpa using hpos)
  simp only [List.drop_zero] at ht hw
  refine ⟨?_, ?_, pt.length_traceFrom _ _, ?_⟩
  · unfold PixelTable.beginIter
    rw [if_neg (by omega)]
  · rw [hsum]
    exact ht
  · rw [hsum, hw]
    simp [PixelTable.isAtEnd]

/-- Witness for C3 on a concrete two-run table. -/
theorem C3_pixel_table_traversal_witness :
    PixelTable.beginIter ⟨[⟨[0, 0], 2⟩, ⟨[5, 1], 1⟩], [6, 2], [0, 0], 3, 0⟩ =
      .ok ⟨0, 0, [0, 0]⟩ ∧
    PixelTable.traceFrom ⟨[⟨[0, 0], 2⟩, ⟨[5, 1], 1⟩], [6, 2], [0, 0], 3, 0⟩
        ⟨0, 0, [0, 0]⟩ 3 =
      PixelTable.pixels ⟨[⟨[0, 0], 2⟩, ⟨[5, 1], 1⟩], [6, 2], [0, 0], 3, 0⟩ ∧
    (PixelTable.traceFrom ⟨[⟨[0, 0], 2⟩, ⟨[5, 1], 1⟩], [6, 2], [0, 0], 3, 0⟩
        ⟨0, 0, [0, 0]⟩ 3).length = 3 ∧
    PixelTable.isAtEnd ⟨[⟨[0, 0], 2⟩, ⟨[5, 1], 1⟩], [6, 2], [0, 0], 3, 0⟩
      (PixelTable.incrN ⟨[⟨[0, 0], 2⟩, ⟨[5, 1], 1⟩], [6, 2], [0, 0], 3, 0⟩
        ⟨0, 0, [0, 0]⟩ 3) = true :=
  C3_pixel_table_traversal ⟨[⟨[0, 0], 2⟩, ⟨[5, 1], 1⟩], [6, 2], [0, 0], 3, 0⟩
    (by decide) (by decide) (by decide)

/-- C5: starting a traversal on a pixel table whose pixel count is zero
fails with the empty-table error, for the coordinate table and for the
offsets table alike. -/
theorem C5_empty_table_error (pt : PixelTable) (pto : PixelTableOffsets)
    (h1 : pt.nPixels = 0) (h2 : pto.nPixels = 0) :
    pt.beginIter = .error "Pixel Table is empty" ∧
    pto.beginIter = .error "Pixel Table is empty" := by
  constructor
  · unfold PixelTable.beginIter
    rw [if_pos h1]
  · unfold PixelTableOffsets.beginIter
    rw [if_pos h2]

/-- Witness for C5 on concrete empty tables. -/
theorem C5_empty_table_error_witness :
    PixelTable.beginIter ⟨[], [], [], 0, 0⟩ = .error "Pixel Table is empty" ∧
    PixelTableOffsets.beginIter ⟨[], [], [], 0, 0, 1⟩ = .error "Pixel Table is empty" :=
  C5_empty_table_error ⟨[], [], [], 0, 0⟩ ⟨[], [], [], 0, 0, 1⟩ rfl rfl

theorem PixelTable.incrN_at_end (pt : PixelTable) (it : PTIterator)
    (h : it.run = pt.runs.length) : ∀ n, pt.incrN it n = it := by
  have s1 : pt.incr it = it := by
    unfold PixelTable.incr
    rw [if_neg (by omega)]
  intro n
  induction n with
  | zero => rfl
  | succ n ih =>
    show pt.incrN (pt.incr it) n = it
    rw [s1]; exact ih

theorem PixelTableOffsets.incrN_at_end_offsets (pt : PixelTableOffsets) (it : PTOIterator)
    (h : it.run = pt.runs.length) : ∀ n, pt.incrN it n = it := by
  have s1 : pt.incr it = it := by
    unfold PixelTableOffsets.incr
    rw [if_neg (by omega)]
  intro n
  induction n with
  | zero => rfl
  | succ n ih =>
    show pt.incrN (pt.incr it) n = it
    rw [s1]; exact ih

/-- C9: incrementing an iterator whose run index equals the number of runs
is a no-op: after any number of further increments the iterator is
unchanged and still at the end, for both iterator kinds. -/
theorem C9_increment_at_end_noop (pt : PixelTable) (pto : PixelTableOffsets)
    (it : PTIterator) (jt : PTOIterator) (n : Nat)
    (h1 : it.run = pt.runs.length) (h2 : jt.run = pto.runs.length) :
    pt.incrN it n = it ∧ pt.isAtEnd (pt.incrN it n) = true ∧
    pto.incrN jt n = jt ∧ pto.isAtEnd (pto.incrN jt n) = true := by
  have n1 := pt.incrN_at_end it h1 n
  have n2 := pto.incrN_at_end_offsets jt h2 n
  refine ⟨n1, ?_, n2, ?_⟩
  · rw [n1]; simp [PixelTable.isAtEnd, h1]
  · rw [n2]; simp [PixelTableOffsets.isAtEnd, h2]

/-- Witness for C9 on concrete end iterators. -/
theorem C9_increment_at_end_noop_witness :
    PixelTable.incrN ⟨[⟨[0], 2⟩], [2], [0], 2, 0⟩ ⟨1, 0, [1]⟩ 5 = ⟨1, 0, [1]⟩ ∧
    PixelTable.isAtEnd ⟨[⟨[0], 2⟩], [2], [0], 2, 0⟩
      (PixelTable.incrN ⟨[⟨[0], 2⟩], [2], [0], 2, 0⟩ ⟨1, 0, [1]⟩ 5) = true ∧
    PixelTableOffsets.incrN ⟨[⟨0, 2⟩], [2], [0], 2, 0, 1⟩ ⟨1, 0, 1⟩ 5 = ⟨1, 0, 1⟩ ∧
    PixelTableOffsets.isAtEnd ⟨[⟨0, 2⟩], [2], [0], 2, 0, 1⟩
      (PixelTableOffsets.incrN ⟨[⟨0, 2⟩], [2], [0], 2, 0, 1⟩ ⟨1, 0, 1⟩ 5) = true :=
  C9_increment_at_end_noop ⟨[⟨[0], 2⟩], [2], [0], 2, 0⟩ ⟨[⟨0, 2⟩], [2], [0], 2, 0, 1⟩
    ⟨1, 0, [1]⟩ ⟨1, 0, 1⟩ 5 rfl rfl


/-- Dot product of a coordinate vector with a stride vector, the linear
offset of a coordinate in an image with those strides. -/
def dotProd (c s : List Int) : Int := ((c.zip s).map (fun q => q.1 * q.2)).sum

@[simp] theorem dotProd_cons (a b : Int) (c s : List Int) :
    dotProd (a :: c) (b :: s) = a * b + dotProd c s := by
  simp [dotProd]

theorem dotProd_modifyNth (p : Nat) :
    ∀ (c s : List Int), p < c.length → p < s.length →
      dotProd (modifyNth (fun x => x + 1) p c) s = dotProd c s + s.getD p 0 := by
  induction p with
  | zero =>
    intro c s hc hs
    match c, s with
    | a :: c, b :: s =>
      simp only [modifyNth, dotProd_cons, List.getD_cons_zero]
      ring
  | succ p ih =>
    intro c s hc hs
    match c, s with
    | a :: c, b :: s =>
      simp only [modifyNth, dotProd_cons, List.getD_cons_succ]
      rw [ih c s (by simpa using hc) (by simpa using hs)]
      ring

/-- Modelled from the spec: the PixelTableOffsets(PixelTable, Image)
constructor called by PixelTable::Prepare is not among the sources (it
lives in pixel_table.cpp).  Following spec section 4.2, each run start
coordinate is converted to the image linear offset (the dot product with
the per-axis strides) and the image stride along the processing dimension
is stored once; the image is represented here by its stride array. -/
def PixelTable.Prepare (pt : PixelTable) (strides : List Int) : PixelTableOffsets :=
  { runs := pt.runs.map (fun r => ⟨dotProd r.coordinates strides, r.length⟩),
    sizes := pt.sizes, origin := pt.origin, nPixels := pt.nPixels,
    procDim := pt.procDim, stride := strides.getD pt.procDim 0 }

/-- C4: the offsets table produced by Prepare traverses exactly
NumberOfPixels offsets; the offset sequence is the parent table coordinate
sequence mapped through the image strides; and it equals the run-by-run
arithmetic progressions with step the stride along the processing
dimension, so that within a run consecutive offsets differ by exactly that
stride. -/
theorem C4_prepare_offsets_refinement (pt : PixelTable) (strides : List Int)
    (hpos : ∀ r ∈ pt.runs, 0 < r.length)
    (hsum : pt.nPixels = (pt.runs.map PixelRun.length).sum)
    (hne : 0 < pt.nPixels)
    (hdim : ∀ r ∈ pt.runs, pt.procDim < r.coordinates.length)
    (hstr : pt.procDim < strides.length) :
    ((pt.Prepare strides).trace).length = pt.nPixels ∧
    (pt.Prepare strides).trace = pt.trace.map (fun c => dotProd c strides) ∧
    (pt.Prepare strides).trace = (pt.Prepare strides).offsetList := by
  have hne2 : pt.runs ≠ [] := by
    intro h
    rw [h] at hsum
    simp at hsum
    omega
  have hlen : 0 < pt.runs.length := List.length_pos.mpr hne2
  -- traversal of the parent coordinate table
  obtain ⟨ht, w, hw⟩ := pt.main_lemma pt.runs.length 0 (by omega) hlen
    (by simpa using hpos)
  simp only [List.drop_zero] at ht hw
  have htrace : pt.trace = pt.runs.flatMap (runPixels pt.procDim) := by
    unfold PixelTable.trace PixelTable.beginIter
    rw [if_neg (by omega)]
    rw [hsum]
    exact ht
  -- traversal of the offsets table
  have holen : (pt.Prepare strides).runs.length = pt.runs.length := by
    simp [PixelTable.Prepare]
  obtain ⟨ht2, w2, hw2⟩ := (pt.Prepare strides).main_lemma_offsets
    (pt.Prepare strides).runs.length 0 (by omega) (by omega)
    (by
      simp only [List.drop_zero, PixelTable.Prepare, List.mem_map]
      rintro r ⟨r0, hr0, rfl⟩
      exact hpos r0 hr0)
  simp only [List.drop_zero] at ht2 hw2
  have hsum2 : ((pt.Prepare strides).runs.map OffsetRun.length).sum =
      (pt.runs.map PixelRun.length).sum := by
    have hfun : (OffsetRun.length ∘ fun r : PixelRun =>
        (⟨dotProd r.coordinates strides, r.length⟩ : OffsetRun)) = PixelRun.length := by
      funext r; rfl
    simp only [PixelTable.Prepare, List.map_map, hfun]
  have htrace2 : (pt.Prepare strides).trace = (pt.Prepare strides).offsetList := by
    unfold PixelTableOffsets.trace PixelTableOffsets.beginIter
    rw [if_neg (by
      show ¬(pt.Prepare strides).nPixels = 0
      have : (pt.Prepare strides).nPixels = pt.nPixels := rfl
      omega)]
    have : (pt.Prepare strides).nPixels = pt.nPixels := rfl
    rw [this, hsum, ← hsum2]
    exact ht2
  refine ⟨?_, ?_, htrace2⟩
  · unfold PixelTableOffsets.trace PixelTableOffsets.beginIter
    rw [if_neg (by
      show ¬(pt.Prepare strides).nPixels = 0
      have : (pt.Prepare strides).nPixels = pt.nPixels := rfl
      omega)]
    have h3 : (pt.Prepare strides).nPixels = pt.nPixels := rfl
    rw [h3, PixelTableOffsets.length_traceFrom_offsets]
  · rw [htrace2, htrace]
    unfold PixelTableOffsets.offsetList
    show ((pt.Prepare strides).runs).flatMap (runOffsets (pt.Prepare strides).stride) =
      (pt.runs.flatMap (runPixels pt.procDim)).map (fun c => dotProd c strides)
    have hstride : (pt.Prepare strides).stride = strides.getD pt.procDim 0 := rfl
    show (pt.runs.map (fun r =>
        (⟨dotProd r.coordinates strides, r.length⟩ : OffsetRun))).flatMap
        (runOffsets (pt.Prepare strides).stride) = _
    rw [List.flatMap_map, List.map_flatMap]
    apply List.flatMap_congr
    intro r hr
    show runOffsets (pt.Prepare strides).stride ⟨dotProd r.coordinates strides, r.length⟩ =
      (runPixels pt.procDim r).map (fun c => dotProd c strides)
    unfold runOffsets runPixels
    rw [hstride]
    refine (iterates_map (modifyNth (fun x => x + 1) pt.procDim)
      (fun c => dotProd c strides) (fun y => y + strides.getD pt.procDim 0)
      (fun c => pt.procDim < c.length) ?_ ?_ r.length r.coordinates (hdim r hr)).symm
    · intro c hc
      exact dotProd_modifyNth pt.procDim c strides hc hstr
    · intro c hc
      simpa using hc

/-- Witness for C4 on a concrete table and stride vector. -/
theorem C4_prepare_offsets_refinement_witness :
    ((PixelTable.Prepare ⟨[⟨[0, 0], 2⟩, ⟨[-1, 1], 1⟩], [2, 2], [0, 0], 3, 0⟩
        [1, 10]).trace).length = 3 ∧
    (PixelTable.Prepare ⟨[⟨[0, 0], 2⟩, ⟨[-1, 1], 1⟩], [2, 2], [0, 0], 3, 0⟩
        [1, 10]).trace =
      (PixelTable.trace ⟨[⟨[0, 0], 2⟩, ⟨[-1, 1], 1⟩], [2, 2], [0, 0], 3, 0⟩).map
        (fun c => dotProd c [1, 10]) ∧
    (PixelTable.Prepare ⟨[⟨[0, 0], 2⟩, ⟨[-1, 1], 1⟩], [2, 2], [0, 0], 3, 0⟩
        [1, 10]).trace =
      (PixelTable.Prepare ⟨[⟨[0, 0], 2⟩, ⟨[-1, 1], 1⟩], [2, 2], [0, 0], 3, 0⟩
        [1, 10]).offsetList :=
  C4_prepare_offsets_refinement ⟨[⟨[0, 0], 2⟩, ⟨[-1, 1], 1⟩], [2, 2], [0, 0], 3, 0⟩
    [1, 10] (by decide) (by decide) (by decide) (by decide) (by decide)


/-! ## Arithmetic operators (src/math/arithmetic.cpp) -/

/-- Embeds the image representation used by the arithmetic entry points:
the number of tensor elements, and one sample list per pixel.  Samples are
rationals standing in for the concrete numeric types. -/
structure MImage where
  tensorElements : Nat
  pixels : List (List ℚ)
deriving DecidableEq, Repr

/-- Truncation toward zero, the rounding used by the C library fmod. -/
def truncQ (q : ℚ) : Int := if 0 ≤ q then ⌊q⌋ else ⌈q⌉

/-- Rational model of std::fmod: the remainder of truncating division. -/
def fmodQ (a b : ℚ) : ℚ := a - b * (truncQ (a / b) : ℚ)

/-- Embeds Div of src/math/arithmetic.cpp: throws "Divisor must be scalar
image" when the right-hand image has other than one tensor element, before
any output is produced; otherwise computes the samplewise quotient with the
scalar divisor broadcast over the tensor elements of the left-hand pixel
(Framework::ScanDyadic and saturated_div are collaborators outside the
sources; division is modelled exactly on rationals). -/
def Div (lhs rhs : MImage) : Except String MImage :=
  if rhs.tensorElements ≠ 1 then .error "Divisor must be scalar image"
  else .ok { tensorElements := lhs.tensorElements,
             pixels := (lhs.pixels.zip rhs.pixels).map
               (fun q => q.1.map (fun v => v / q.2.getD 0 0)) }

/-- Embeds Mod of src/math/arithmetic.cpp: same scalar-divisor guard as
Div, then the samplewise std::fmod, modelled by fmodQ. -/
def Mod (lhs rhs : MImage) : Except String MImage :=
  if rhs.tensorElements ≠ 1 then .error "Divisor must be scalar image"
  else .ok { tensorElements := lhs.tensorElements,
             pixels := (lhs.pixels.zip rhs.pixels).map
               (fun q => q.1.map (fun v => fmodQ v (q.2.getD 0 0))) }

/-- C10: Div and Mod fail with the divisor-must-be-scalar error whenever
the right-hand image has more than one tensor element; the check precedes
any computation, so on error no output image is produced. -/
theorem C10_div_mod_scalar_divisor_check (lhs rhs : MImage)
    (h : 1 < rhs.tensorElements) :
    Div lhs rhs = .error "Divisor must be scalar image" ∧
    Mod lhs rhs = .error "Divisor must be scalar image" := by
  constructor
  · unfold Div
    rw [if_pos (by omega)]
  · unfold Mod
    rw [if_pos (by omega)]

/-- Witness for C10 with a two-component divisor image. -/
theorem C10_div_mod_scalar_divisor_check_witness :
    Div ⟨1, [[4]]⟩ ⟨2, [[1, 2]]⟩ = .error "Divisor must be scalar image" ∧
    Mod ⟨1, [[4]]⟩ ⟨2, [[1, 2]]⟩ = .error "Divisor must be scalar image" :=
  C10_div_mod_scalar_divisor_check ⟨1, [[4]]⟩ ⟨2, [[1, 2]]⟩ (by decide)

/-! ## Separable convolution engine (declared in include/diplib/linear.h) -/

/-- A d-dimensional image for the convolution model: a rational sample at
every integer coordinate vector (boundary extension is abstracted away by
working on the whole grid). -/
def NDImage (d : Nat) : Type := (Fin d → Int) → ℚ

/-- Recognizes a no-op axis filter: zero-length weights, or the single
weight one (linear.h: a filter array that is zero size or the equivalent
of the singleton one is not applied). -/
def isNoOp (f : OneDimensionalFilter) : Bool :=
  f.filter.isEmpty || f.filter == [1]

/-- Correlation of an image along axis `k` with effective weights `w` and
effective origin `origin`: each output sample is the weighted sum of the
window centered per the origin. -/
def correlateAxis {d : Nat} (img : NDImage d) (k : Fin d) (w : List ℚ)
    (origin : Nat) : NDImage d :=
  fun c => ((List.range w.length).map (fun j =>
    w.getD j 0 * img (fun i => if i = k then c i + (j : Int) - (origin : Int) else c i))).sum

/-- Selects the axis filter for axis `k`: the single entry broadcast when
the filter array has length one, otherwise the entry for that axis. -/
def filterFor {d : Nat} (fa : List OneDimensionalFilter) (k : Fin d) :
    OneDimensionalFilter :=
  if fa.length = 1 then fa.getD 0 { filter := [] } else fa.getD k.val { filter := [] }

/-- Modelled from the spec: the SeparableConvolution engine (declared in
linear.h, implementation not among the sources).  The filter array must
have one entry per axis or a single entry broadcast to every axis
(otherwise DimensionMismatch); each axis whose filter is a no-op is
skipped; every other axis filter is expanded and applied as a 1D
correlation along that axis, the axis passes composed in axis order. -/
def SeparableConvolution {d : Nat} (img : NDImage d)
    (filterArray : List OneDimensionalFilter) : Except String (NDImage d) :=
  if filterArray.length = 1 ∨ filterArray.length = d then
    (List.finRange d).foldlM (fun acc k =>
      if isNoOp (filterFor filterArray k) then pure acc
      else match Expand (filterFor filterArray k) with
        | Except.ok q => pure (correlateAxis acc k q.1 q.2)
        | Except.error e => Except.error e) img
  else .error "DimensionMismatch"

/-- C6: a filter array in which every filter is a no-op (zero-length
weights or the single weight one) leaves any input unchanged: the engine
skips every axis and returns the input image. -/
theorem C6_noop_filters_identity {d : Nat} (img : NDImage d)
    (fa : List OneDimensionalFilter)
    (hlen : fa.length = 1 ∨ fa.length = d)
    (hnoop : ∀ f ∈ fa, isNoOp f = true) :
    SeparableConvolution img fa = .ok img := by
  unfold SeparableConvolution
  rw [if_pos hlen]
  have step : ∀ (ks : List (Fin d)) (acc : NDImage d),
      List.foldlM (fun acc k =>
        if isNoOp (filterFor fa k) then pure acc
        else match Expand (filterFor fa k) with
          | Except.ok q => pure (correlateAxis acc k q.1 q.2)
          | Except.error e => Except.error e) acc ks = Except.ok acc := by
    intro ks
    induction ks with
    | nil => intro acc; rfl
    | cons k ks ih =>
      intro acc
      have hmem : filterFor fa k ∈ fa := by
        unfold filterFor
        by_cases h1 : fa.length = 1
        · rw [if_pos h1]
          rw [List.getD_eq_getElem fa { filter := [] } (by omega)]
          exact List.getElem_mem _
        · rw [if_neg h1]
          have hd : fa.length = d := by
            rcases hlen with h | h
            · exact absurd h h1
            · exact h
          rw [List.getD_eq_getElem fa { filter := [] } (by rw [hd]; exact k.isLt)]
          exact List.getElem_mem _
      rw [List.foldlM_cons, if_pos (hnoop _ hmem)]
      show (Except.ok acc >>= _) = _
      exact ih acc
  exact step (List.finRange d) img

/-- Witness for C6: two no-op filters on a two-dimensional constant image. -/
theorem C6_noop_filters_identity_witness :
    SeparableConvolution (fun _ : Fin 2 → Int => (5 : ℚ))
      [{ filter := [] }, { filter := [1] }] = .ok (fun _ => (5 : ℚ)) :=
  C6_noop_filters_identity (fun _ => (5 : ℚ)) [{ filter := [] }, { filter := [1] }]
    (Or.inr rfl) (by decide)


/-! ## Shape and mask constructors (declared in include/diplib/pixel_table.h)

The constructor bodies live in pixel_table.cpp, which is not among the
sources; they are modelled from the specification below.  Helper
definitions first: box enumeration, run assembly, and rounding on exact
rationals. -/

/-- Cartesian product of per-axis coordinate ranges, first axis varying
fastest (the innermost scan axis). -/
def prodListsInner : List (List α) → List (List α)
  | [] => [[]]
  | xs :: rest => (prodListsInner rest).flatMap (fun c => xs.map (fun x => x :: c))

theorem mem_prodListsInner {ls : List (List α)} :
    ∀ {c : List α}, c ∈ prodListsInner ls ↔ List.Forall₂ (fun x xs => x ∈ xs) c ls := by
  induction ls with
  | nil =>
    intro c
    simp only [prodListsInner, List.mem_singleton]
    constructor
    · rintro rfl; exact List.Forall₂.nil
    · intro h; cases h; rfl
  | cons xs rest ih =>
    intro c
    simp only [prodListsInner, List.mem_flatMap, List.mem_map]
    constructor
    · rintro ⟨c2, hc2, x, hx, rfl⟩
      exact List.Forall₂.cons hx (ih.mp hc2)
    · intro h
      cases h with
      | cons hx hc2 => exact ⟨_, ih.mpr hc2, _, hx, rfl⟩

theorem length_of_mem_prodListsInner {ls : List (List α)} {c : List α}
    (h : c ∈ prodListsInner ls) : c.length = ls.length :=
  (mem_prodListsInner.mp h).length_eq

/-- Assembles one run being built: `start` and `len` describe the run so
far, `prev` is its last pixel; a next pixel continuing along dimension `p`
extends the run, any other pixel closes it and starts a new one. -/
def buildRunsAux (p : Nat) (start prev : List Int) (len : Nat) :
    List (List Int) → List PixelRun
  | [] => [⟨start, len⟩]
  | c :: rest =>
    if c = modifyNth (fun x => x + 1) p prev then
      buildRunsAux p start c (len + 1) rest
    else
      ⟨start, len⟩ :: buildRunsAux p c c 1 rest

/-- Groups a pixel list into runs by merging successive pixels that are
adjacent along dimension `p`. -/
def buildRuns (p : Nat) : List (List Int) → List PixelRun
  | [] => []
  | c :: rest => buildRunsAux p c c 1 rest

theorem flatMap_buildRunsAux (p : Nat) :
    ∀ (rest : List (List Int)) (start prev : List Int) (len : Nat), 0 < len →
      (∀ m, iterates (modifyNth (fun x => x + 1) p) start (len + m) =
        iterates (modifyNth (fun x => x + 1) p) start len ++
          iterates (modifyNth (fun x => x + 1) p)
            (modifyNth (fun x => x + 1) p prev) m) →
      (buildRunsAux p start prev len rest).flatMap (runPixels p) =
        iterates (modifyNth (fun x => x + 1) p) start len ++ rest := by
  intro rest
  induction rest with
  | nil =>
    intro start prev len _ _
    simp [buildRunsAux, runPixels]
  | cons c rest ih =>
    intro start prev len hlen hinv
    by_cases hc : c = modifyNth (fun x => x + 1) p prev
    · have hone : iterates (modifyNth (fun x => x + 1) p) start (len + 1) =
          iterates (modifyNth (fun x => x + 1) p) start len ++ [c] := by
        rw [hinv 1, hc]
        rfl
      have hinv2 : ∀ m, iterates (modifyNth (fun x => x + 1) p) start ((len + 1) + m) =
          iterates (modifyNth (fun x => x + 1) p) start (len + 1) ++
            iterates (modifyNth (fun x => x + 1) p)
              (modifyNth (fun x => x + 1) p c) m := by
        intro m
        have h1 : (len + 1) + m = len + (m + 1) := by omega
        rw [h1, hinv (m + 1), hone, hc, iterates_succ, List.append_assoc]
        rfl
      have hunfold : buildRunsAux p start prev len (c :: rest) =
          buildRunsAux p start c (len + 1) rest := by
        simp only [buildRunsAux]
        rw [if_pos hc]
      rw [hunfold, ih start c (len + 1) (by omega) hinv2, hone, List.append_assoc]
      rfl
    · have hinv1 : ∀ m, iterates (modifyNth (fun x => x + 1) p) c (1 + m) =
          iterates (modifyNth (fun x => x + 1) p) c 1 ++
            iterates (modifyNth (fun x => x + 1) p)
              (modifyNth (fun x => x + 1) p c) m := by
        intro m
        have h1 : 1 + m = m + 1 := by omega
        rw [h1]
        rfl
      have hunfold : buildRunsAux p start prev len (c :: rest) =
          ⟨start, len⟩ :: buildRunsAux p c c 1 rest := by
        simp only [buildRunsAux]
        rw [if_neg hc]
      rw [hunfold, List.flatMap_cons, ih c c 1 (by omega) hinv1]
      simp [runPixels, iterates]

/-- Pixel list reconstruction: expanding the runs built from any pixel
list gives back exactly that list. -/
theorem flatMap_buildRuns (p : Nat) (l : List (List Int)) :
    (buildRuns p l).flatMap (runPixels p) = l := by
  cases l with
  | nil => rfl
  | cons c rest =>
    show (buildRunsAux p c c 1 rest).flatMap (runPixels p) = c :: rest
    rw [flatMap_buildRunsAux p rest c c 1 (by omega) (by
      intro m
      have h1 : 1 + m = m + 1 := by omega
      rw [h1]
      rfl)]
    rfl

/-- Coordinates of a mask sample relative to an origin. -/
def subCoords (c o : List Nat) : List Int :=
  List.zipWith (fun a b => (a : Int) - (b : Int)) c o

theorem subCoords_inj (o : List Nat) :
    ∀ (x y : List Nat), x.length = o.length → y.length = o.length →
      subCoords x o = subCoords y o → x = y := by
  induction o with
  | nil =>
    intro x y hx hy _
    cases x with
    | nil =>
      cases y with
      | nil => rfl
      | cons b ys => simp at hy
    | cons a xs => simp at hx
  | cons v o ih =>
    intro x y hx hy h
    cases x with
    | nil => simp at hx
    | cons a xs =>
      cases y with
      | nil => simp at hy
      | cons b ys =>
        simp only [subCoords, List.zipWith_cons_cons] at h
        injection h with h1 h2
        have h3 : (a : Int) - (v : Int) = (b : Int) - (v : Int) := h1
        have ha : a = b := by omega
        rw [ha, ih xs ys (by simpa using hx) (by simpa using hy) h2]

/-- Rounding to the nearest integer via the exact num/den representation:
the half-up rounding of q as a floor division. -/
def roundQ (q : ℚ) : Int := (2 * q.num + (q.den : Int)) / (2 * (q.den : Int))

/-- Rounding to the nearest odd integer via the exact num/den
representation. -/
def oddRoundQ (q : ℚ) : Int := 2 * (q.num / (2 * (q.den : Int))) + 1

theorem roundQ_eq_round (q : ℚ) : roundQ q = round q := by
  rw [round_eq]
  have hden : ((q.den : ℚ)) ≠ 0 := Nat.cast_ne_zero.mpr q.den_nz
  have key : q + 1 / 2 = ((2 * q.num + (q.den : Int) : Int) : ℚ) / ((2 * q.den : ℕ) : ℚ) := by
    conv_lhs => rw [← Rat.num_div_den q]
    push_cast
    field_simp
    ring
  rw [key, Rat.floor_intCast_div_natCast]
  unfold roundQ
  push_cast
  rfl

theorem oddRoundQ_eq_round (q : ℚ) : oddRoundQ q = 2 * round ((q - 1) / 2) + 1 := by
  rw [round_eq]
  have hden : ((q.den : ℚ)) ≠ 0 := Nat.cast_ne_zero.mpr q.den_nz
  have key : (q - 1) / 2 + 1 / 2 = ((q.num : Int) : ℚ) / ((2 * q.den : ℕ) : ℚ) := by
    conv_lhs => rw [← Rat.num_div_den q]
    push_cast
    field_simp
    ring
  rw [key, Rat.floor_intCast_div_natCast]
  unfold oddRoundQ
  push_cast
  rfl


/-- Per-axis coordinate range of a bounding box axis of extent `e` with
origin index `o`, relative to the origin. -/
def axisRange (e o : Nat) : List Int := (List.range e).map (fun i => (i : Int) - (o : Int))

/-- Weighted L1-ball membership test for the diamond shape, on the integer
grid: radii are (extent - 1) / 2 per axis; a coordinate on an axis of zero
radius must be zero; the remaining normalized absolute coordinates, put
over the common denominator P (the product of the nonzero radii), must sum
to at most P. -/
def diamondMember (extents : List Nat) (c : List Int) : Bool :=
  let rs := extents.map (fun e => (e - 1) / 2)
  let P := (rs.filter (fun r => decide (r ≠ 0))).prod
  (c.zip rs).all (fun q => decide (q.2 ≠ 0 ∨ q.1 = 0)) &&
  decide (((c.zip rs).map (fun q => if q.2 = 0 then 0 else q.1.natAbs * (P / q.2))).sum ≤ P)

/-- Membership for the named shape families: every bounding-box point for
the rectangle, the L1 ball for the diamond. -/
def shapeMember (shape : String) (extents : List Nat) (c : List Int) : Bool :=
  if shape = "diamond" then diamondMember extents c else true

/-- Bounding-box extents for a shape family: the rectangle rounds the real
diameter to the nearest integer, the diamond to the nearest odd integer. -/
def shapeExtents (shape : String) (size : List ℚ) : List Nat :=
  size.map (fun s => if shape = "rectangular" then (roundQ s).toNat else (oddRoundQ s).toNat)

/-- Pixels of a shape neighborhood: the bounding-box points (origin at
floor(extent / 2) per axis, first axis scanning fastest) that pass the
membership test. -/
def shapePixels (shape : String) (extents : List Nat) : List (List Int) :=
  (prodListsInner (List.zipWith axisRange extents (extents.map (fun e => e / 2)))).filter
    (fun c => shapeMember shape extents c)

/-- Modelled from the spec: the PixelTable(String, FloatArray, dip::uint)
constructor declared in pixel_table.h, whose body (pixel_table.cpp) is not
among the sources.  Rectangular extents are round(size); diamond extents
are the nearest odd integer with L1-ball membership; the bounding box is
scanned with dimension 0 innermost and contiguous pixels along the
processing dimension are merged into runs.  Sizes are exact rationals in
place of machine doubles; the elliptic family is not needed by any claim
and is not modelled, so only the two modelled shape strings are accepted. -/
def PixelTableShape (shape : String) (size : List ℚ) (procDim : Nat) :
    Except String PixelTable :=
  if size = [] then .error "DimensionMismatch"
  else if size.any (fun s => decide (s ≤ 0)) then .error "InvalidParameter"
  else if shape = "rectangular" ∨ shape = "diamond" then
    .ok { runs := buildRuns procDim (shapePixels shape (shapeExtents shape size)),
          sizes := shapeExtents shape size,
          origin := (shapeExtents shape size).map (fun e => e / 2),
          nPixels := (shapePixels shape (shapeExtents shape size)).length,
          procDim := procDim }
  else .error "InvalidParameter"

theorem pixelTableShape_ok (shape : String) (size : List ℚ) (procDim : Nat)
    (h1 : size ≠ []) (h2 : ∀ s ∈ size, 0 < s)
    (hs : shape = "rectangular" ∨ shape = "diamond") :
    PixelTableShape shape size procDim =
      .ok { runs := buildRuns procDim (shapePixels shape (shapeExtents shape size)),
            sizes := shapeExtents shape size,
            origin := (shapeExtents shape size).map (fun e => e / 2),
            nPixels := (shapePixels shape (shapeExtents shape size)).length,
            procDim := procDim } := by
  unfold PixelTableShape
  rw [if_neg h1]
  rw [if_neg (by
    intro hany
    rw [List.any_eq_true] at hany
    obtain ⟨s, hsmem, hle⟩ := hany
    rw [decide_eq_true_eq] at hle
    exact absurd (h2 s hsmem) (not_lt.mpr hle))]
  rw [if_pos hs]

/-- C7: for every positive size vector, a rectangular pixel table has
per-axis extent round(size) and a diamond pixel table has per-axis extent
the nearest odd integer with L1-ball membership; in particular rectangular
size {3,3} yields 9 pixels forming the 3 by 3 block and diamond size {3,3}
yields the 5 pixels of the plus shape. -/
theorem C7_shape_tables (size : List ℚ) (procDim : Nat)
    (h1 : size ≠ []) (h2 : ∀ s ∈ size, 0 < s) :
    (∃ pt, PixelTableShape "rectangular" size procDim = .ok pt ∧
      pt.sizes = size.map (fun s => (round s).toNat)) ∧
    (∃ pt, PixelTableShape "diamond" size procDim = .ok pt ∧
      pt.sizes = size.map (fun s => (2 * round ((s - 1) / 2) + 1).toNat) ∧
      ∀ c, c ∈ pt.pixels ↔
        (c ∈ prodListsInner (List.zipWith axisRange pt.sizes pt.origin) ∧
          diamondMember pt.sizes c = true)) ∧
    PixelTableShape "rectangular" [3, 3] 0 =
      .ok ⟨[⟨[-1, -1], 3⟩, ⟨[-1, 0], 3⟩, ⟨[-1, 1], 3⟩], [3, 3], [1, 1], 9, 0⟩ ∧
    PixelTable.pixels ⟨[⟨[-1, -1], 3⟩, ⟨[-1, 0], 3⟩, ⟨[-1, 1], 3⟩], [3, 3], [1, 1], 9, 0⟩ =
      [[-1, -1], [0, -1], [1, -1], [-1, 0], [0, 0], [1, 0], [-1, 1], [0, 1], [1, 1]] ∧
    PixelTableShape "diamond" [3, 3] 0 =
      .ok ⟨[⟨[0, -1], 1⟩, ⟨[-1, 0], 3⟩, ⟨[0, 1], 1⟩], [3, 3], [1, 1], 5, 0⟩ ∧
    PixelTable.pixels ⟨[⟨[0, -1], 1⟩, ⟨[-1, 0], 3⟩, ⟨[0, 1], 1⟩], [3, 3], [1, 1], 5, 0⟩ =
      [[0, -1], [-1, 0], [0, 0], [1, 0], [0, 1]] := by
  refine ⟨?_, ?_, by rfl, by rfl, by rfl, by rfl⟩
  · refine ⟨_, pixelTableShape_ok "rectangular" size procDim h1 h2 (Or.inl rfl), ?_⟩
    show shapeExtents "rectangular" size = _
    unfold shapeExtents
    simp [roundQ_eq_round]
  · refine ⟨_, pixelTableShape_ok "diamond" size procDim h1 h2 (Or.inr rfl), ?_, ?_⟩
    · show shapeExtents "diamond" size = _
      unfold shapeExtents
      refine List.map_congr_left ?_
      intro s _
      rw [if_neg (by decide), oddRoundQ_eq_round]
    · intro c
      show c ∈ PixelTable.pixels _ ↔ _
      unfold PixelTable.pixels
      show c ∈ (buildRuns procDim (shapePixels "diamond" (shapeExtents "diamond" size))).flatMap
        (runPixels procDim) ↔ _
      rw [flatMap_buildRuns]
      unfold shapePixels
      rw [List.mem_filter]
      have hmm : shapeMember "diamond" (shapeExtents "diamond" size) c =
          diamondMember (shapeExtents "diamond" size) c := by
        unfold shapeMember
        rw [if_pos rfl]
      rw [hmm]

/-- Witness for C7 applied at the size vector {3,3}. -/
theorem C7_shape_tables_witness :
    ∃ pt, PixelTableShape "rectangular" [3, 3] 0 = .ok pt ∧
      pt.sizes = ([3, 3] : List ℚ).map (fun s => (round s).toNat) :=
  (C7_shape_tables [3, 3] 0 (by decide) (by
    intro s hs
    rcases List.mem_cons.mp hs with h | h
    · rw [h]; norm_num
    · rcases List.mem_cons.mp h with h | h
      · rw [h]; norm_num
      · simp at h)).1


/-- A boolean mask array: per-axis sizes and the sample at each coordinate
vector (samples outside the box are not part of the array). -/
structure BinImage where
  sizes : List Nat
  data : List Nat → Bool

/-- All coordinate vectors of the box spanned by `sizes`, first axis
scanning fastest. -/
def boxN (sizes : List Nat) : List (List Nat) := prodListsInner (sizes.map List.range)

/-- Geometric center of a box: floor(extent / 2) per axis (for even
extents, the pixel right of center). -/
def centerOrigin (sizes : List Nat) : List Nat := sizes.map (fun e => e / 2)

/-- Coordinates, relative to `origin`, of the set samples of a mask, in
scan order. -/
def maskPixels (mask : BinImage) (origin : List Nat) : List (List Int) :=
  ((boxN mask.sizes).filter mask.data).map (fun c => subCoords c origin)

/-- Modelled from the spec: the PixelTable(Image mask, UnsignedArray
origin, dip::uint procDim) constructor declared in pixel_table.h, whose
body (pixel_table.cpp) is not among the sources.  The mask is scanned in
order and adjacent set samples along the processing dimension are merged
into runs; coordinates are stored relative to the chosen origin; the
bounding-box sizes are the mask sizes. -/
def PixelTableFromMask (mask : BinImage) (origin : List Nat) (procDim : Nat) :
    PixelTable :=
  { runs := buildRuns procDim (maskPixels mask origin),
    sizes := mask.sizes, origin := origin,
    nPixels := (maskPixels mask origin).length, procDim := procDim }

/-- Modelled from the spec: the conversion of a PixelTable to a binary
image (operator dip::Image, pixel_table.cpp not among the sources): an
array over the table bounding box whose set samples are exactly the table
pixels, placed relative to the stored origin. -/
def PixelTable.toMask (pt : PixelTable) : BinImage :=
  { sizes := pt.sizes, data := fun c => decide (subCoords c pt.origin ∈ pt.pixels) }

theorem length_of_mem_boxN {sizes : List Nat} {c : List Nat} (h : c ∈ boxN sizes) :
    c.length = sizes.length := by
  have := length_of_mem_prodListsInner h
  simpa using this

/-- C8: converting a mask to a pixel table (with the mask geometric center
as origin) and rendering the table back to a mask reproduces the original
mask: same sizes and the same sample at every coordinate of the box. -/
theorem C8_mask_round_trip (mask : BinImage) (procDim : Nat)
    (_ht : ∃ c ∈ boxN mask.sizes, mask.data c = true) :
    ((PixelTableFromMask mask (centerOrigin mask.sizes) procDim).toMask).sizes =
      mask.sizes ∧
    ∀ c ∈ boxN mask.sizes,
      ((PixelTableFromMask mask (centerOrigin mask.sizes) procDim).toMask).data c =
        mask.data c := by
  refine ⟨rfl, ?_⟩
  intro c hc
  have hpix : (PixelTableFromMask mask (centerOrigin mask.sizes) procDim).pixels =
      maskPixels mask (centerOrigin mask.sizes) := by
    unfold PixelTable.pixels PixelTableFromMask
    exact flatMap_buildRuns procDim (maskPixels mask (centerOrigin mask.sizes))
  show decide (subCoords c (centerOrigin mask.sizes) ∈
      (PixelTableFromMask mask (centerOrigin mask.sizes) procDim).pixels) = mask.data c
  rw [hpix]
  have hclen : c.length = mask.sizes.length := length_of_mem_boxN hc
  have holen : (centerOrigin mask.sizes).length = mask.sizes.length := by
    simp [centerOrigin]
  have hiff : (subCoords c (centerOrigin mask.sizes) ∈
      maskPixels mask (centerOrigin mask.sizes)) ↔ mask.data c = true := by
    constructor
    · intro hmem
      unfold maskPixels at hmem
      rw [List.mem_map] at hmem
      obtain ⟨c2, hc2, heq⟩ := hmem
      rw [List.mem_filter] at hc2
      have hc2len : c2.length = mask.sizes.length := length_of_mem_boxN hc2.1
      have hcc : c2 = c := subCoords_inj (centerOrigin mask.sizes) c2 c
        (by rw [hc2len, holen]) (by rw [hclen, holen]) heq
      rw [← hcc]
      exact hc2.2
    · intro hdata
      unfold maskPixels
      rw [List.mem_map]
      exact ⟨c, List.mem_filter.mpr ⟨hc, hdata⟩, rfl⟩
  cases hd : mask.data c with
  | true =>
    rw [decide_eq_true (hiff.mpr hd)]
  | false =>
    rw [decide_eq_false (fun hmem => by
      have h5 := hiff.mp hmem
      rw [hd] at h5
      exact Bool.false_ne_true h5)]

/-- Witness for C8 on a concrete one-dimensional mask with a single set
sample. -/
theorem C8_mask_round_trip_witness :
    ((PixelTableFromMask ⟨[3], fun c => decide (c = [1])⟩
        (centerOrigin [3]) 0).toMask).sizes = [3] ∧
    ∀ c ∈ boxN [3],
      ((PixelTableFromMask ⟨[3], fun c => decide (c = [1])⟩
          (centerOrigin [3]) 0).toMask).data c =
        decide (c = [1]) :=
  C8_mask_round_trip ⟨[3], fun c => decide (c = [1])⟩ 0 ⟨[1], by decide, by decide⟩

end DiplibModel
